import Mathlib

/-!
Shallow embedding of the `simple_arg_parser` Rust crate (src/lib.rs).

Tokens are modelled as `List Char` (one entry per Unicode scalar value,
matching Rust's `str::chars`).  The byte-level concerns of Rust string
slicing (`&s[1..]`, `&s[2..]` panic on non-boundary indices) are modelled
separately through a UTF-8 encoder and an explicit char-boundary check,
used by a guarded variant of the parser.
-/

namespace SimpleArgParser

/-- A token: the character sequence of a Rust `String`. -/
abbrev Str := List Char

/-- Rust `str::starts_with` with a string pattern, at the char level. -/
def starts_with (s p : Str) : Bool := List.isPrefixOf p s

/-- From `impl CheckableIfArgument for String`, `is_positional`:
`!self.starts_with("-")`. -/
def is_positional (s : Str) : Bool := !(starts_with s ['-'])

/-- Predicate `is_flag`: `self.starts_with("-") && !self.starts_with("--")`. -/
def is_flag (s : Str) : Bool := starts_with s ['-'] && !(starts_with s ['-', '-'])

/-- Predicate `is_option`: `self.starts_with("--") && !self.contains("=")`. -/
def is_option (s : Str) : Bool := starts_with s ['-', '-'] && !(s.contains '=')

/-- Predicate `is_variable`: `self.starts_with("--") && self.contains("=")`. -/
def is_variable (s : Str) : Bool := starts_with s ['-', '-'] && s.contains '='

/-- The `Argument` enum of the crate. -/
inductive Argument where
  | Positional (value : Str)
  | Flag (c : Char)
  | Option (name : Str)
  | Variable (name value : Str)
deriving DecidableEq, Repr

/-- The `ParsedArguments` struct.  The Rust `HashMap<String, String>` field
`variables` is modelled as an association list whose keys stay unique:
`insertVar` below reproduces `HashMap::insert` (overwrite on existing key). -/
structure ParsedArguments where
  arguments : List Argument
  positionals : List Str
  flags : List Char
  options : List Str
  variables_map : List (Str × Str)
deriving DecidableEq, Repr

/-- The all-empty accumulator state at the top of `parse_arguments`. -/
def emptyParsed : ParsedArguments :=
  { arguments := [], positionals := [], flags := [], options := [], variables_map := [] }

/-- Rust `str::split_once(sep)`: split at the first occurrence of `sep`,
returning the parts before and after it, or `none` when absent. -/
def split_once (sep : Char) : Str → Option (Str × Str)
  | [] => none
  | c :: rest =>
    if c = sep then some ([], rest)
    else match split_once sep rest with
      | some (b, a) => some (c :: b, a)
      | none => none

/-- Model of `HashMap::insert`: overwrite the value when the key is
present, otherwise add a new entry. -/
def insertVar (m : List (Str × Str)) (k v : Str) : List (Str × Str) :=
  if m.any (fun p => p.1 = k) then
    m.map (fun p => if p.1 = k then (k, v) else p)
  else m ++ [(k, v)]

/-- One iteration of the `for item in args` loop of `parse_arguments`
(src/lib.rs lines 97-139): the `if`/`else if` chain over the four
predicates, updating the accumulators. -/
def processToken (st : ParsedArguments) (item : Str) : ParsedArguments :=
  if is_positional item then
    { st with positionals := st.positionals ++ [item],
              arguments := st.arguments ++ [Argument.Positional item] }
  else if is_flag item then
    let trimmed := item.drop 1
    { st with flags := st.flags ++ trimmed,
              arguments := st.arguments ++ trimmed.map Argument.Flag }
  else if is_option item then
    let trimmed := item.drop 2
    { st with options := st.options ++ [trimmed],
              arguments := st.arguments ++ [Argument.Option trimmed] }
  else if is_variable item then
    let trimmed := item.drop 2
    match split_once '=' trimmed with
    | some (before, after) =>
      { st with variables_map := insertVar st.variables_map before after,
                arguments := st.arguments ++ [Argument.Variable before after] }
    | none => st
  else st

/-- The function `parse_arguments` (src/lib.rs lines 90-148): the single
classification pass over the token sequence. -/
def parse_arguments (args : List Str) : ParsedArguments :=
  args.foldl processToken emptyParsed

/-- Lookup in the modelled `HashMap`. -/
def lookupVar (m : List (Str × Str)) (k : Str) : Option Str :=
  (m.find? (fun p => p.1 = k)).map (fun p => p.2)

/-- The name/value pair a token contributes to `variables`, when it is a
variable token. -/
def varBinding (s : Str) : Option (Str × Str) :=
  if is_variable s then split_once '=' (s.drop 2) else none

/-- Scan of `args` for the value of the last variable token named `k`,
starting from a prior answer `acc`. -/
def lastVarFrom (args : List Str) (k : Str) (acc : Option Str) : Option Str :=
  args.foldl
    (fun a s =>
      match varBinding s with
      | some (n, v) => if n = k then some v else a
      | none => a)
    acc

/-- The value of the last variable token with name `k` in `args`. -/
def lastVar (args : List Str) (k : Str) : Option Str :=
  lastVarFrom args k none

/-- Whether an `Argument` entry is a `Variable` entry. -/
def isVariableEntry : Argument → Bool
  | Argument.Variable _ _ => true
  | _ => false

/-- The four syntactic categories of the classifier. -/
inductive Category where
  | pos
  | flag
  | opt
  | var
deriving DecidableEq, Repr

/-- The category recorded by an `Argument` entry. -/
def categoryOf : Argument → Category
  | Argument.Positional _ => Category.pos
  | Argument.Flag _ => Category.flag
  | Argument.Option _ => Category.opt
  | Argument.Variable _ _ => Category.var

/-- The category a token takes under the source's priority order
(positional, then flag, then option, then variable); `none` when no
predicate matches. -/
def categorize (s : Str) : Option Category :=
  if is_positional s then some Category.pos
  else if is_flag s then some Category.flag
  else if is_option s then some Category.opt
  else if is_variable s then some Category.var
  else none

/-- The category a token takes when the predicates are tried in the
reverse priority order. -/
def categorizeRev (s : Str) : Option Category :=
  if is_variable s then some Category.var
  else if is_option s then some Category.opt
  else if is_flag s then some Category.flag
  else if is_positional s then some Category.pos
  else none

/-- UTF-8 encoding of one Unicode scalar value, as the byte values Rust
stores for it (divisions by powers of two in place of shifts; the summed
fields are disjoint, so `+` coincides with bitwise or). -/
def utf8EncodeChar (c : Char) : List Nat :=
  let n := c.toNat
  if n < 0x80 then [n]
  else if n < 0x800 then [0xC0 + n / 0x40, 0x80 + n % 0x40]
  else if n < 0x10000 then
    [0xE0 + n / 0x1000, 0x80 + n / 0x40 % 0x40, 0x80 + n % 0x40]
  else
    [0xF0 + n / 0x40000, 0x80 + n / 0x1000 % 0x40, 0x80 + n / 0x40 % 0x40,
      0x80 + n % 0x40]

/-- The UTF-8 byte sequence of a token: what a Rust `String` stores. -/
def utf8Encode (s : Str) : List Nat := (s.map utf8EncodeChar).flatten

/-- Rust `str::is_char_boundary`: index 0, the total length, or any index
holding a byte that is not a UTF-8 continuation byte. -/
def isCharBoundary (b : List Nat) (i : Nat) : Bool :=
  i == 0 || i == b.length ||
    (match b.get? i with
     | some x => decide (x < 0x80) || decide (0xC0 ≤ x)
     | none => false)

/-- The guarded loop body: identical to `processToken`, except that each
Rust byte-range slice `&original[i..]` first checks `is_char_boundary i`
on the token's UTF-8 bytes and signals the panic as `none`. -/
def processTokenChecked (st : ParsedArguments) (item : Str) :
    Option ParsedArguments :=
  if is_positional item then
    some { st with positionals := st.positionals ++ [item],
                   arguments := st.arguments ++ [Argument.Positional item] }
  else if is_flag item then
    if isCharBoundary (utf8Encode item) 1 then
      let trimmed := item.drop 1
      some { st with flags := st.flags ++ trimmed,
                     arguments := st.arguments ++ trimmed.map Argument.Flag }
    else none
  else if is_option item then
    if isCharBoundary (utf8Encode item) 2 then
      let trimmed := item.drop 2
      some { st with options := st.options ++ [trimmed],
                     arguments := st.arguments ++ [Argument.Option trimmed] }
    else none
  else if is_variable item then
    if isCharBoundary (utf8Encode item) 2 then
      let trimmed := item.drop 2
      match split_once '=' trimmed with
      | some (before, after) =>
        some { st with variables_map := insertVar st.variables_map before after,
                       arguments := st.arguments ++ [Argument.Variable before after] }
      | none => some st
    else none
  else some st

/-- Variant of `parse_arguments` with the byte-boundary guards: `none`
models a slicing panic somewhere in the pass. -/
def parse_arguments_checked (args : List Str) : Option ParsedArguments :=
  args.foldlM processTokenChecked emptyParsed

/-! ### Helper lemmas -/

lemma starts_with_single_iff (s : Str) :
    starts_with s ['-'] = true ↔ ∃ t, s = '-' :: t := by
  cases s with
  | nil => simp [starts_with, List.isPrefixOf]
  | cons c t =>
    simp only [starts_with, List.isPrefixOf, List.isPrefixOf_nil_left,
      Bool.and_true, beq_iff_eq]
    constructor
    · intro h; exact ⟨t, by rw [← h]⟩
    · rintro ⟨t', ht'⟩
      injection ht' with h1 _
      exact h1.symm

lemma starts_with_double_iff (s : Str) :
    starts_with s ['-', '-'] = true ↔ ∃ t, s = '-' :: '-' :: t := by
  match s with
  | [] => simp [starts_with, List.isPrefixOf]
  | [c] => simp [starts_with, List.isPrefixOf]
  | c1 :: c2 :: t =>
    simp only [starts_with, List.isPrefixOf, List.isPrefixOf_nil_left,
      Bool.and_true, Bool.and_eq_true, beq_iff_eq]
    constructor
    · rintro ⟨h1, h2⟩; exact ⟨t, by rw [← h1, ← h2]⟩
    · rintro ⟨t', ht'⟩
      injection ht' with h1 h2
      injection h2 with h3 _
      exact ⟨h1.symm, h3.symm⟩

lemma single_of_double {s : Str} (h : starts_with s ['-', '-'] = true) :
    starts_with s ['-'] = true := by
  obtain ⟨t, rfl⟩ := (starts_with_double_iff s).mp h
  exact (starts_with_single_iff _).mpr ⟨'-' :: t, rfl⟩

lemma variable_shape {s : Str} (h : is_variable s = true) :
    ∃ t, s = '-' :: '-' :: t ∧ '=' ∈ t := by
  unfold is_variable at h
  obtain ⟨hd, hc⟩ := Bool.and_eq_true_iff.mp h
  obtain ⟨t, rfl⟩ := (starts_with_double_iff _).mp hd
  refine ⟨t, rfl, ?_⟩
  have hmem : '=' ∈ ('-' :: '-' :: t : Str) := by
    simpa using hc
  rcases List.mem_cons.mp hmem with h1 | hmem2
  · exact absurd h1 (by decide)
  rcases List.mem_cons.mp hmem2 with h1 | h3
  · exact absurd h1 (by decide)
  exact h3

lemma split_once_some {sep : Char} :
    ∀ {s b a : Str}, split_once sep s = some (b, a) →
      b ++ sep :: a = s ∧ sep ∉ b := by
  intro s
  induction s with
  | nil => intro b a h; simp [split_once] at h
  | cons c rest ih =>
    intro b a h
    unfold split_once at h
    by_cases hc : c = sep
    · simp [hc] at h
      obtain ⟨hb, ha⟩ := h
      subst hb; subst ha; subst hc
      exact ⟨rfl, by simp⟩
    · simp [hc] at h
      cases hsplit : split_once sep rest with
      | none => rw [hsplit] at h; simp at h
      | some p =>
        obtain ⟨pb, pa⟩ := p
        rw [hsplit] at h
        simp at h
        obtain ⟨hb, ha⟩ := h
        subst hb; subst ha
        obtain ⟨heq, hmem⟩ := ih hsplit
        refine ⟨by rw [List.cons_append, heq], ?_⟩
        simp [hmem]
        exact fun hcs => hc hcs.symm

lemma split_once_of_mem {sep : Char} :
    ∀ {s : Str}, sep ∈ s → ∃ p, split_once sep s = some p := by
  intro s
  induction s with
  | nil => intro h; simp at h
  | cons c rest ih =>
    intro h
    unfold split_once
    by_cases hc : c = sep
    · exact ⟨([], rest), by simp [hc]⟩
    · have hmem : sep ∈ rest := by
        rcases List.mem_cons.mp h with h1 | h1
        · exact absurd h1.symm hc
        · exact h1
      obtain ⟨⟨pb, pa⟩, hp⟩ := ih hmem
      exact ⟨(c :: pb, pa), by simp [hc, hp]⟩

lemma processToken_of_positional {s : Str} (h : is_positional s = true)
    (st : ParsedArguments) :
    processToken st s =
      { st with positionals := st.positionals ++ [s],
                arguments := st.arguments ++ [Argument.Positional s] } := by
  simp [processToken, h]

lemma processToken_of_flag {s : Str} (h : is_flag s = true)
    (st : ParsedArguments) :
    processToken st s =
      { st with flags := st.flags ++ s.drop 1,
                arguments := st.arguments ++ (s.drop 1).map Argument.Flag } := by
  have hparts := h
  simp only [is_flag, Bool.and_eq_true, Bool.not_eq_true'] at hparts
  have h1 : is_positional s = false := by simp [is_positional, hparts.1]
  simp [processToken, h, h1]

lemma processToken_of_option {s : Str} (h : is_option s = true)
    (st : ParsedArguments) :
    processToken st s =
      { st with options := st.options ++ [s.drop 2],
                arguments := st.arguments ++ [Argument.Option (s.drop 2)] } := by
  have hparts := h
  simp only [is_option, Bool.and_eq_true, Bool.not_eq_true'] at hparts
  have h1 : is_positional s = false := by
    simp [is_positional, single_of_double hparts.1]
  have h2 : is_flag s = false := by simp [is_flag, hparts.1]
  simp [processToken, h, h1, h2]

lemma processToken_of_variable {s : Str} (h : is_variable s = true)
    (st : ParsedArguments) :
    ∃ before after, split_once '=' (s.drop 2) = some (before, after) ∧
      processToken st s =
        { st with variables_map := insertVar st.variables_map before after,
                  arguments := st.arguments ++ [Argument.Variable before after] } := by
  have hparts := h
  simp only [is_variable, Bool.and_eq_true] at hparts
  obtain ⟨t, hs, hmem⟩ := variable_shape h
  have hdrop : s.drop 2 = t := by rw [hs]; rfl
  obtain ⟨⟨b, a⟩, hsplit⟩ := split_once_of_mem hmem
  have hsplit' : split_once '=' (s.drop 2) = some (b, a) := by
    rw [hdrop]; exact hsplit
  refine ⟨b, a, hsplit', ?_⟩
  have h1 : is_positional s = false := by
    simp [is_positional, single_of_double hparts.1]
  have h2 : is_flag s = false := by simp [is_flag, hparts.1]
  have hc : '=' ∈ s := by simpa using hparts.2
  have h3 : is_option s = false := by simp [is_option, hparts.1, hc]
  simp [processToken, h, h1, h2, h3, hsplit']

lemma find?_map_update {k v : Str} :
    ∀ m : List (Str × Str), m.any (fun p => p.1 = k) = true →
      (m.map (fun p => if p.1 = k then (k, v) else p)).find?
          (fun p => p.1 = k) = some (k, v) := by
  intro m
  induction m with
  | nil => intro h; simp at h
  | cons p m ih =>
    intro h
    by_cases hp : p.1 = k
    · simp [hp]
    · have h' : m.any (fun q => q.1 = k) = true := by
        simp only [List.any_cons, Bool.or_eq_true, decide_eq_true_eq] at h
        rcases h with h | h
        · exact absurd h hp
        · simpa using h
      simp [hp, ih h']

lemma find?_map_update_ne {k v j : Str} (hj : j ≠ k) :
    ∀ m : List (Str × Str),
      (m.map (fun p => if p.1 = k then (k, v) else p)).find?
          (fun p => p.1 = j) = m.find? (fun p => p.1 = j) := by
  intro m
  induction m with
  | nil => simp
  | cons p m ih =>
    by_cases hp : p.1 = k
    · have hpj : ¬(p.1 = j) := by rw [hp]; exact Ne.symm hj
      rw [List.map_cons, if_pos hp,
        List.find?_cons_of_neg _ (by simpa using Ne.symm hj),
        List.find?_cons_of_neg _ (by simpa using hpj), ih]
    · by_cases hpj : p.1 = j
      · rw [List.map_cons, if_neg hp,
          List.find?_cons_of_pos _ (by simpa using hpj),
          List.find?_cons_of_pos _ (by simpa using hpj)]
      · rw [List.map_cons, if_neg hp,
          List.find?_cons_of_neg _ (by simpa using hpj),
          List.find?_cons_of_neg _ (by simpa using hpj), ih]

lemma lookupVar_insertVar (m : List (Str × Str)) (k v j : Str) :
    lookupVar (insertVar m k v) j = if j = k then some v else lookupVar m j := by
  unfold insertVar lookupVar
  by_cases hk : m.any (fun p => p.1 = k) = true
  · rw [if_pos hk]
    by_cases hj : j = k
    · subst hj
      rw [find?_map_update m hk]
      simp
    · rw [find?_map_update_ne hj m, if_neg hj]
  · rw [if_neg hk]
    have hk' : m.any (fun p => p.1 = k) = false := Bool.eq_false_iff.mpr hk
    have hnone : m.find? (fun p => decide (p.1 = k)) = none := by
      rw [List.find?_eq_none]
      intro x hx
      exact List.any_eq_false.mp hk' x hx
    by_cases hj : j = k
    · subst hj
      rw [List.find?_append, hnone]
      simp
    · rw [List.find?_append, if_neg hj]
      have hsingle :
          ([(k, v)] : List (Str × Str)).find? (fun p => decide (p.1 = j)) = none := by
        simp [Ne.symm hj]
      rw [hsingle]
      simp

lemma not_variable_of_positional {s : Str} (h : is_positional s = true) :
    is_variable s = false := by
  have hsingle : starts_with s ['-'] = false := by
    simpa [is_positional] using h
  have hdouble : starts_with s ['-', '-'] = false := by
    cases hcase : starts_with s ['-', '-'] with
    | false => rfl
    | true => exact absurd (single_of_double hcase) (by simp [hsingle])
  simp [is_variable, hdouble]

lemma not_variable_of_flag {s : Str} (h : is_flag s = true) :
    is_variable s = false := by
  have hparts := h
  simp only [is_flag, Bool.and_eq_true, Bool.not_eq_true'] at hparts
  simp [is_variable, hparts.2]

lemma not_variable_of_option {s : Str} (h : is_option s = true) :
    is_variable s = false := by
  have hparts := h
  simp only [is_option, Bool.and_eq_true, Bool.not_eq_true'] at hparts
  have hnc : '=' ∉ s := by simpa using hparts.2
  simp [is_variable, hnc]

lemma processToken_variables_map (st : ParsedArguments) (s : Str) :
    (processToken st s).variables_map =
      match varBinding s with
      | some (n, v) => insertVar st.variables_map n v
      | none => st.variables_map := by
  by_cases h1 : is_positional s = true
  · rw [processToken_of_positional h1]
    simp [varBinding, not_variable_of_positional h1]
  · by_cases h2 : is_flag s = true
    · rw [processToken_of_flag h2]
      simp [varBinding, not_variable_of_flag h2]
    · by_cases h3 : is_option s = true
      · rw [processToken_of_option h3]
        simp [varBinding, not_variable_of_option h3]
      · by_cases h4 : is_variable s = true
        · obtain ⟨b, a, hsplit, heq⟩ := processToken_of_variable h4 st
          rw [heq]
          simp [varBinding, h4, hsplit]
        · unfold processToken
          rw [if_neg h1, if_neg h2, if_neg h3, if_neg h4]
          simp [varBinding, Bool.eq_false_iff.mpr h4]

lemma lastVarFrom_cons (k s : Str) (t : List Str) (acc : Option Str) :
    lastVarFrom (s :: t) k acc =
      lastVarFrom t k
        (match varBinding s with
         | some (n, v) => if n = k then some v else acc
         | none => acc) := rfl

lemma lastVarFrom_shift (k : Str) :
    ∀ (args : List Str) (acc : Option Str),
      lastVarFrom args k acc =
        match lastVarFrom args k none with
        | some v => some v
        | none => acc := by
  intro args
  induction args with
  | nil => intro acc; rfl
  | cons s t ih =>
    intro acc
    rw [lastVarFrom_cons k s t acc, lastVarFrom_cons k s t none]
    cases hvb : varBinding s with
    | none => exact ih acc
    | some p =>
      obtain ⟨n, v⟩ := p
      simp only []
      by_cases hnk : n = k
      · rw [if_pos hnk, if_pos hnk]
        rw [ih (some v)]
        cases lastVarFrom t k none <;> simp
      · rw [if_neg hnk, if_neg hnk]
        exact ih acc

lemma lookupVar_processToken (st : ParsedArguments) (s k : Str) :
    lookupVar (processToken st s).variables_map k =
      match varBinding s with
      | some (n, v) => if n = k then some v else lookupVar st.variables_map k
      | none => lookupVar st.variables_map k := by
  rw [processToken_variables_map]
  cases hvb : varBinding s with
  | none => rfl
  | some p =>
    obtain ⟨n, v⟩ := p
    simp only []
    rw [lookupVar_insertVar]
    by_cases hnk : n = k
    · subst hnk; simp
    · rw [if_neg hnk, if_neg (Ne.symm hnk)]

lemma lookupVar_foldl (k : Str) :
    ∀ (args : List Str) (st : ParsedArguments),
      lookupVar (args.foldl processToken st).variables_map k =
        lastVarFrom args k (lookupVar st.variables_map k) := by
  intro args
  induction args with
  | nil => intro st; rfl
  | cons s t ih =>
    intro st
    rw [List.foldl_cons, ih (processToken st s), lastVarFrom_cons k s t]
    rw [lookupVar_processToken]

lemma keys_nodup_insertVar {m : List (Str × Str)} (k v : Str)
    (h : (m.map Prod.fst).Nodup) : ((insertVar m k v).map Prod.fst).Nodup := by
  unfold insertVar
  by_cases hk : m.any (fun p => p.1 = k) = true
  · rw [if_pos hk]
    have hkeys :
        (m.map (fun p => if p.1 = k then (k, v) else p)).map Prod.fst =
          m.map Prod.fst := by
      rw [List.map_map]
      apply List.map_congr_left
      intro p _
      by_cases hpk : p.1 = k
      · simp [hpk]
      · simp [hpk]
    rw [hkeys]; exact h
  · rw [if_neg hk]
    have hk' := Bool.eq_false_iff.mpr hk
    have hnotin : k ∉ m.map Prod.fst := by
      intro hmem
      obtain ⟨p, hp, hpk⟩ := List.mem_map.mp hmem
      have hfalse := List.any_eq_false.mp hk' p hp
      simp at hfalse
      exact hfalse hpk
    rw [List.map_append]
    refine List.nodup_append.mpr ⟨h, by simp, ?_⟩
    intro x hx hxk
    simp at hxk
    exact hnotin (hxk ▸ hx)

lemma keys_nodup_processToken {st : ParsedArguments} (s : Str)
    (h : (st.variables_map.map Prod.fst).Nodup) :
    ((processToken st s).variables_map.map Prod.fst).Nodup := by
  rw [processToken_variables_map]
  cases hvb : varBinding s with
  | none => exact h
  | some p =>
    obtain ⟨n, v⟩ := p
    exact keys_nodup_insertVar n v h

lemma keys_nodup_foldl :
    ∀ (args : List Str) (st : ParsedArguments),
      (st.variables_map.map Prod.fst).Nodup →
      ((args.foldl processToken st).variables_map.map Prod.fst).Nodup := by
  intro args
  induction args with
  | nil => intro st h; exact h
  | cons s t ih =>
    intro st h
    rw [List.foldl_cons]
    exact ih _ (keys_nodup_processToken s h)

lemma counts_processToken (st : ParsedArguments) (s : Str)
    (h : st.arguments.length =
      st.positionals.length + st.flags.length + st.options.length +
        st.arguments.countP isVariableEntry) :
    (processToken st s).arguments.length =
      (processToken st s).positionals.length + (processToken st s).flags.length +
        (processToken st s).options.length +
        (processToken st s).arguments.countP isVariableEntry := by
  by_cases h1 : is_positional s = true
  · rw [processToken_of_positional h1]
    simp only [List.length_append, List.countP_append, List.length_cons,
      List.length_nil, List.countP_cons, List.countP_nil, isVariableEntry]
    simp
    omega
  · by_cases h2 : is_flag s = true
    · rw [processToken_of_flag h2]
      simp only [List.length_append, List.countP_append, List.countP_map,
        List.length_map]
      have hzero : ((s.drop 1).map Argument.Flag).countP isVariableEntry = 0 := by
        rw [List.countP_eq_zero]
        intro a ha
        obtain ⟨c, _, rfl⟩ := List.mem_map.mp ha
        simp [isVariableEntry]
      simp only [List.countP_map] at hzero
      omega
    · by_cases h3 : is_option s = true
      · rw [processToken_of_option h3]
        simp only [List.length_append, List.countP_append, List.length_cons,
          List.length_nil, List.countP_cons, List.countP_nil, isVariableEntry]
        simp
        omega
      · by_cases h4 : is_variable s = true
        · obtain ⟨b, a, _, heq⟩ := processToken_of_variable h4 st
          rw [heq]
          simp only [List.length_append, List.countP_append, List.length_cons,
            List.length_nil, List.countP_cons, List.countP_nil, isVariableEntry]
          simp
          omega
        · unfold processToken
          rw [if_neg h1, if_neg h2, if_neg h3, if_neg h4]
          exact h

lemma counts_foldl :
    ∀ (args : List Str) (st : ParsedArguments),
      st.arguments.length =
        st.positionals.length + st.flags.length + st.options.length +
          st.arguments.countP isVariableEntry →
      (args.foldl processToken st).arguments.length =
        (args.foldl processToken st).positionals.length +
          (args.foldl processToken st).flags.length +
          (args.foldl processToken st).options.length +
          (args.foldl processToken st).arguments.countP isVariableEntry := by
  intro args
  induction args with
  | nil => intro st h; exact h
  | cons s t ih =>
    intro st h
    rw [List.foldl_cons]
    exact ih _ (counts_processToken st s h)

lemma positionals_processToken (st : ParsedArguments) (s : Str) :
    (processToken st s).positionals =
      if is_positional s = true then st.positionals ++ [s] else st.positionals := by
  by_cases h1 : is_positional s = true
  · rw [if_pos h1, processToken_of_positional h1]
  · rw [if_neg h1]
    by_cases h2 : is_flag s = true
    · rw [processToken_of_flag h2]
    · by_cases h3 : is_option s = true
      · rw [processToken_of_option h3]
      · by_cases h4 : is_variable s = true
        · obtain ⟨b, a, _, heq⟩ := processToken_of_variable h4 st
          rw [heq]
        · unfold processToken
          rw [if_neg h1, if_neg h2, if_neg h3, if_neg h4]

lemma positionals_mem_foldl :
    ∀ (args : List Str) (st : ParsedArguments) (s : Str),
      s ∈ (args.foldl processToken st).positionals →
      s ∈ st.positionals ∨ is_positional s = true := by
  intro args
  induction args with
  | nil => intro st s h; exact Or.inl h
  | cons a t ih =>
    intro st s h
    rw [List.foldl_cons] at h
    rcases ih _ s h with hmem | hpos
    · rw [positionals_processToken] at hmem
      by_cases hp : is_positional a = true
      · rw [if_pos hp] at hmem
        rcases List.mem_append.mp hmem with hm1 | hm1
        · exact Or.inl hm1
        · have hsa : s = a := by simpa using hm1
          exact Or.inr (hsa ▸ hp)
      · rw [if_neg hp] at hmem
        exact Or.inl hmem
    · exact Or.inr hpos

lemma positionals_foldl_all_positional :
    ∀ (l : List Str) (st : ParsedArguments),
      (∀ s ∈ l, is_positional s = true) →
      (l.foldl processToken st).positionals = st.positionals ++ l := by
  intro l
  induction l with
  | nil => intro st _; simp
  | cons a t ih =>
    intro st hall
    rw [List.foldl_cons, ih _ (fun s hs => hall s (List.mem_cons_of_mem a hs))]
    rw [positionals_processToken, if_pos (hall a (List.mem_cons_self a t))]
    simp

lemma utf8Encode_cons (c : Char) (t : Str) :
    utf8Encode (c :: t) = utf8EncodeChar c ++ utf8Encode t := by
  simp [utf8Encode]

lemma utf8EncodeChar_ascii {c : Char} (h : c.toNat < 0x80) :
    utf8EncodeChar c = [c.toNat] := by
  simp [utf8EncodeChar, h]

lemma utf8EncodeChar_head (c : Char) :
    ∃ b tail, utf8EncodeChar c = b :: tail ∧ (b < 0x80 ∨ 0xC0 ≤ b) := by
  unfold utf8EncodeChar
  by_cases h1 : c.toNat < 0x80
  · exact ⟨c.toNat, [], by simp [h1], Or.inl h1⟩
  · by_cases h2 : c.toNat < 0x800
    · exact ⟨0xC0 + c.toNat / 0x40, [0x80 + c.toNat % 0x40], by simp [h1, h2],
        Or.inr (Nat.le_add_right _ _)⟩
    · by_cases h3 : c.toNat < 0x10000
      · exact ⟨0xE0 + c.toNat / 0x1000,
          [0x80 + c.toNat / 0x40 % 0x40, 0x80 + c.toNat % 0x40],
          by simp [h1, h2, h3], Or.inr (by omega)⟩
      · exact ⟨0xF0 + c.toNat / 0x40000,
          [0x80 + c.toNat / 0x1000 % 0x40, 0x80 + c.toNat / 0x40 % 0x40,
            0x80 + c.toNat % 0x40],
          by simp [h1, h2, h3], Or.inr (by omega)⟩

lemma boundary_head (t : Str) (i : Nat) (b : List Nat) (hlen : b.length = i) :
    isCharBoundary (b ++ utf8Encode t) i = true := by
  cases t with
  | nil =>
    unfold isCharBoundary
    simp [utf8Encode, hlen]
  | cons c2 t2 =>
    obtain ⟨x, tail, hx, hcase⟩ := utf8EncodeChar_head c2
    rw [utf8Encode_cons, hx]
    unfold isCharBoundary
    have hassoc : b ++ ((x :: tail) ++ utf8Encode t2) =
        b ++ (x :: (tail ++ utf8Encode t2)) := by simp
    rw [hassoc]
    have hget : (b ++ (x :: (tail ++ utf8Encode t2))).get? i = some x := by
      rw [List.get?_append_right (by omega)]
      simp [hlen]
    rw [hget]
    rcases hcase with hlt | hge
    · simp [hlt]
    · simp [hge]

lemma boundary_after_ascii {c : Char} (t : Str) (h : c.toNat < 0x80) :
    isCharBoundary (utf8Encode (c :: t)) 1 = true := by
  rw [utf8Encode_cons, utf8EncodeChar_ascii h]
  exact boundary_head t 1 [c.toNat] rfl

lemma boundary_after_two_ascii {c1 c2 : Char} (t : Str) (h1 : c1.toNat < 0x80)
    (h2 : c2.toNat < 0x80) :
    isCharBoundary (utf8Encode (c1 :: c2 :: t)) 2 = true := by
  rw [utf8Encode_cons, utf8EncodeChar_ascii h1, utf8Encode_cons,
    utf8EncodeChar_ascii h2]
  rw [show ([c1.toNat] ++ ([c2.toNat] ++ utf8Encode t)) =
    ([c1.toNat, c2.toNat] ++ utf8Encode t) from by simp]
  exact boundary_head t 2 [c1.toNat, c2.toNat] rfl

lemma boundary_of_flag {s : Str} (h : is_flag s = true) :
    isCharBoundary (utf8Encode s) 1 = true := by
  have hsingle : starts_with s ['-'] = true := by
    have hparts := h
    simp only [is_flag, Bool.and_eq_true, Bool.not_eq_true'] at hparts
    exact hparts.1
  obtain ⟨t, rfl⟩ := (starts_with_single_iff s).mp hsingle
  exact boundary_after_ascii t (by decide)

lemma boundary_of_double {s : Str} (h : starts_with s ['-', '-'] = true) :
    isCharBoundary (utf8Encode s) 2 = true := by
  obtain ⟨t, rfl⟩ := (starts_with_double_iff s).mp h
  exact boundary_after_two_ascii t (by decide) (by decide)

lemma processTokenChecked_eq (st : ParsedArguments) (s : Str) :
    processTokenChecked st s = some (processToken st s) := by
  unfold processTokenChecked processToken
  by_cases h1 : is_positional s = true
  · rw [if_pos h1, if_pos h1]
  · rw [if_neg h1, if_neg h1]
    by_cases h2 : is_flag s = true
    · rw [if_pos h2, if_pos h2, if_pos (boundary_of_flag h2)]
    · rw [if_neg h2, if_neg h2]
      by_cases h3 : is_option s = true
      · have hd : starts_with s ['-', '-'] = true := by
          have hparts := h3
          simp only [is_option, Bool.and_eq_true, Bool.not_eq_true'] at hparts
          exact hparts.1
        rw [if_pos h3, if_pos h3, if_pos (boundary_of_double hd)]
      · rw [if_neg h3, if_neg h3]
        by_cases h4 : is_variable s = true
        · have hd : starts_with s ['-', '-'] = true := by
            have hparts := h4
            simp only [is_variable, Bool.and_eq_true] at hparts
            exact hparts.1
          rw [if_pos h4, if_pos h4, if_pos (boundary_of_double hd)]
          cases hsplit : split_once '=' (s.drop 2) with
          | none => simp [hsplit]
          | some p =>
            obtain ⟨b, a⟩ := p
            simp [hsplit]
        · rw [if_neg h4, if_neg h4]

lemma foldlM_checked :
    ∀ (args : List Str) (st : ParsedArguments),
      List.foldlM processTokenChecked st args =
        some (List.foldl processToken st args) := by
  intro args
  induction args with
  | nil => intro st; rfl
  | cons s t ih =>
    intro st
    rw [List.foldlM_cons, processTokenChecked_eq]
    show (Option.some (processToken st s)).bind
      (fun b => List.foldlM processTokenChecked b t) = _
    rw [Option.some_bind]
    rw [List.foldl_cons]
    exact ih (processToken st s)

/-! ### Claim theorems -/

/-- C1: on the input `["test.txt", "-o", "test.o", "--debug",
"--ignore-warnings=true"]`, `parse_arguments` yields positionals
`["test.txt", "test.o"]`, flags `['o']`, options `["debug"]`, variables
`{"ignore-warnings": "true"}`, and an `arguments` sequence of length 5 in
category order Positional, Flag, Positional, Option, Variable. -/
theorem spec_C1 :
    (parse_arguments ["test.txt".toList, "-o".toList, "test.o".toList,
        "--debug".toList, "--ignore-warnings=true".toList]).positionals =
      ["test.txt".toList, "test.o".toList] ∧
    (parse_arguments ["test.txt".toList, "-o".toList, "test.o".toList,
        "--debug".toList, "--ignore-warnings=true".toList]).flags = ['o'] ∧
    (parse_arguments ["test.txt".toList, "-o".toList, "test.o".toList,
        "--debug".toList, "--ignore-warnings=true".toList]).options =
      ["debug".toList] ∧
    (parse_arguments ["test.txt".toList, "-o".toList, "test.o".toList,
        "--debug".toList, "--ignore-warnings=true".toList]).variables_map =
      [("ignore-warnings".toList, "true".toList)] ∧
    (parse_arguments ["test.txt".toList, "-o".toList, "test.o".toList,
        "--debug".toList, "--ignore-warnings=true".toList]).arguments.length = 5 ∧
    (parse_arguments ["test.txt".toList, "-o".toList, "test.o".toList,
        "--debug".toList, "--ignore-warnings=true".toList]).arguments.map
        categoryOf =
      [Category.pos, Category.flag, Category.pos, Category.opt, Category.var] := by
  decide

/-- C2: every token satisfies exactly one of the four category predicates,
so the priority order of the `if`/`else if` chain does not affect which
category a token is assigned. -/
theorem spec_C2 :
    ∀ s : Str,
      [is_positional s, is_flag s, is_option s, is_variable s].count true = 1 ∧
      categorize s = categorizeRev s := by
  intro s
  by_cases h1 : starts_with s ['-'] = true
  · by_cases h2 : starts_with s ['-', '-'] = true
    · by_cases h3 : s.contains '=' = true
      · have hm : '=' ∈ s := by simpa using h3
        simp [is_positional, is_flag, is_option, is_variable, categorize,
          categorizeRev, h1, h2, h3, hm, List.count_cons]
      · have h3' := Bool.eq_false_iff.mpr h3
        have hm : ¬('=' ∈ s) := by simpa using h3'
        simp [is_positional, is_flag, is_option, is_variable, categorize,
          categorizeRev, h1, h2, h3', hm, List.count_cons]
    · have h2' := Bool.eq_false_iff.mpr h2
      simp [is_positional, is_flag, is_option, is_variable, categorize,
        categorizeRev, h1, h2', List.count_cons]
  · have h1' := Bool.eq_false_iff.mpr h1
    have h2' : starts_with s ['-', '-'] = false := by
      cases hc : starts_with s ['-', '-'] with
      | false => rfl
      | true => exact absurd (single_of_double hc) (by simp [h1'])
    simp [is_positional, is_flag, is_option, is_variable, categorize,
      categorizeRev, h1', h2', List.count_cons]

/-- C3: a flag token contributes one Flag entry per character of the
remainder after the single dash, appended in left-to-right order to both
`arguments` and `flags`; the bare token "-" yields an unchanged (empty)
result and no error. -/
theorem spec_C3 :
    (∀ (st : ParsedArguments) (s : Str), is_flag s = true →
        processToken st s =
          { st with flags := st.flags ++ s.drop 1,
                    arguments := st.arguments ++ (s.drop 1).map Argument.Flag }) ∧
      parse_arguments [['-']] = emptyParsed :=
  ⟨fun st s h => processToken_of_flag h st, by decide⟩

/-- Witness for C3 at the flag token "-abc". -/
theorem spec_C3_witness :
    processToken emptyParsed ("-abc".toList) =
      { emptyParsed with
          flags := emptyParsed.flags ++ ("-abc".toList).drop 1,
          arguments := emptyParsed.arguments ++
            (("-abc".toList).drop 1).map Argument.Flag } :=
  spec_C3.1 emptyParsed ("-abc".toList) (by decide)

/-- C4: a variable token is split after the two leading dashes at the
first '=': the part before it (which contains no '=') becomes the name,
everything after it (later '='s included) becomes the value, inserted into
the variables map and appended to `arguments`. -/
theorem spec_C4 :
    ∀ (st : ParsedArguments) (s : Str), is_variable s = true →
      ∃ before after,
        split_once '=' (s.drop 2) = some (before, after) ∧
        before ++ '=' :: after = s.drop 2 ∧ '=' ∉ before ∧
        processToken st s =
          { st with
              variables_map := insertVar st.variables_map before after,
              arguments := st.arguments ++ [Argument.Variable before after] } := by
  intro st s h
  obtain ⟨b, a, hsplit, heq⟩ := processToken_of_variable h st
  obtain ⟨hcat, hmem⟩ := split_once_some hsplit
  exact ⟨b, a, hsplit, hcat, hmem, heq⟩

/-- Witness for C4 at the variable token "--a=b=c". -/
theorem spec_C4_witness :
    ∃ before after,
      split_once '=' (("--a=b=c".toList).drop 2) = some (before, after) ∧
      before ++ '=' :: after = ("--a=b=c".toList).drop 2 ∧ '=' ∉ before ∧
      processToken emptyParsed ("--a=b=c".toList) =
        { emptyParsed with
            variables_map := insertVar emptyParsed.variables_map before after,
            arguments := emptyParsed.arguments ++
              [Argument.Variable before after] } :=
  spec_C4 emptyParsed ("--a=b=c".toList) (by decide)

/-- C5: the variables map is last-write-wins with unique keys: looking up
any name yields the value of the last variable token with that name, keys
are never duplicated, and `["--x=1", "--x=2"]` yields exactly
`{"x": "2"}` with `arguments` of length 2. -/
theorem spec_C5 :
    (∀ (args : List Str) (k : Str),
        lookupVar (parse_arguments args).variables_map k = lastVar args k) ∧
    (∀ args : List Str,
        ((parse_arguments args).variables_map.map Prod.fst).Nodup) ∧
    (parse_arguments ["--x=1".toList, "--x=2".toList]).variables_map =
      [("x".toList, "2".toList)] ∧
    (parse_arguments ["--x=1".toList, "--x=2".toList]).arguments.length = 2 := by
  refine ⟨?_, ?_, by decide, by decide⟩
  · intro args k
    exact lookupVar_foldl k args emptyParsed
  · intro args
    exact keys_nodup_foldl args emptyParsed (by simp [emptyParsed])

/-- C6: `parse_arguments` is total and never panics: the guarded parser,
which checks that each byte-index slice `[1..]` or `[2..]` lands on a
UTF-8 character boundary of the token before trimming, succeeds on every
input and agrees with `parse_arguments`. -/
theorem spec_C6 :
    ∀ args : List Str,
      parse_arguments_checked args = some (parse_arguments args) := by
  intro args
  exact foldlM_checked args emptyParsed

/-- C7: the bare token "--" is classified as an Option with empty name:
it appends the empty string to `options` and `Option ""` to `arguments`,
and the guarded parser does not error on it. -/
theorem spec_C7 :
    categorize ['-', '-'] = some Category.opt ∧
    parse_arguments [['-', '-']] =
      { emptyParsed with options := [[]], arguments := [Argument.Option []] } ∧
    parse_arguments_checked [['-', '-']] = some (parse_arguments [['-', '-']]) := by
  refine ⟨by decide, by decide, by decide⟩

/-- C8: for every input, `arguments.length` equals `positionals.length`
plus the total flag characters (`flags.length`) plus `options.length`
plus the number of Variable entries of `arguments`. -/
theorem spec_C8 :
    ∀ args : List Str,
      (parse_arguments args).arguments.length =
        (parse_arguments args).positionals.length +
          (parse_arguments args).flags.length +
          (parse_arguments args).options.length +
          (parse_arguments args).arguments.countP isVariableEntry := by
  intro args
  exact counts_foldl args emptyParsed (by decide)

/-- C9: re-classifying the `positionals` output returns the same list of
positionals unchanged. -/
theorem spec_C9 :
    ∀ args : List Str,
      (parse_arguments (parse_arguments args).positionals).positionals =
        (parse_arguments args).positionals := by
  intro args
  have hall : ∀ s ∈ (parse_arguments args).positionals,
      is_positional s = true := by
    intro s hs
    rcases positionals_mem_foldl args emptyParsed s hs with hmem | hpos
    · simp [emptyParsed] at hmem
    · exact hpos
  have hfold := positionals_foldl_all_positional
    (parse_arguments args).positionals emptyParsed hall
  simpa [parse_arguments, emptyParsed] using hfold

/-- C10: the malformed-variable drop path is unreachable: for every token
satisfying the variable predicate, `split_once` on the trimmed remainder
succeeds, and the token is never dropped — `arguments` always grows by
one entry. -/
theorem spec_C10 :
    ∀ (st : ParsedArguments) (s : Str), is_variable s = true →
      (∃ p, split_once '=' (s.drop 2) = some p) ∧
      (processToken st s).arguments.length = st.arguments.length + 1 := by
  intro st s h
  obtain ⟨b, a, hsplit, heq⟩ := processToken_of_variable h st
  refine ⟨⟨(b, a), hsplit⟩, ?_⟩
  rw [heq]
  simp

/-- Witness for C10 at the variable token "--x=1". -/
theorem spec_C10_witness :
    (∃ p, split_once '=' (("--x=1".toList).drop 2) = some p) ∧
    (processToken emptyParsed ("--x=1".toList)).arguments.length =
      emptyParsed.arguments.length + 1 :=
  spec_C10 emptyParsed ("--x=1".toList) (by decide)

end SimpleArgParser
